import Mathlib

/-!
Verification of the sample-reconciliation core of `app.py`.

Strings are modelled as lists of Unicode codepoints (`PyStr`), and Python's
string operations (`strip`, `lower`, `title`, whitespace collapsing,
substring tests, `split`) are embedded at the codepoint level, restricted to
the character repertoire the program works with (ASCII plus the Cyrillic
block, with the ASCII whitespace and digit classes for `\s` / `\d`).
-/

/-- A Python string, as its list of Unicode codepoints. -/
abbrev PyStr := List Nat

/-- Convert a Lean string literal to its codepoint list. -/
def strToPy (s : String) : PyStr := s.toList.map Char.toNat

/-- Python's `\s` class (ASCII whitespace repertoire). -/
def isWsN (c : Nat) : Bool := c = 32 || c = 9 || c = 10 || c = 13 || c = 11 || c = 12

/-- ASCII decimal digit, Python's `\d` on this repertoire. -/
def isDigitN (c : Nat) : Bool := 48 ≤ c && c ≤ 57

/-- The regex class `[а-яА-Я]` (Cyrillic letters without Ё/ё). -/
def isCyrN (c : Nat) : Bool := (1072 ≤ c && c ≤ 1103) || (1040 ≤ c && c ≤ 1071)

/-- Python `str.lower`, restricted to ASCII Latin and Cyrillic. -/
def pyLowerN (c : Nat) : Nat :=
  if 65 ≤ c ∧ c ≤ 90 then c + 32
  else if 1040 ≤ c ∧ c ≤ 1071 then c + 32
  else if c = 1025 then 1105
  else c

/-- Python `str.upper`, restricted to ASCII Latin and Cyrillic. -/
def pyUpperN (c : Nat) : Nat :=
  if 97 ≤ c ∧ c ≤ 122 then c - 32
  else if 1072 ≤ c ∧ c ≤ 1103 then c - 32
  else if c = 1105 then 1025
  else c

/-- A cased character (has an upper/lower form) on this repertoire. -/
def isCasedN (c : Nat) : Bool :=
  (65 ≤ c && c ≤ 90) || (97 ≤ c && c ≤ 122) || (1040 ≤ c && c ≤ 1103) ||
  c = 1025 || c = 1105

def pyLowerStr (s : PyStr) : PyStr := s.map pyLowerN

def pyUpperStr (s : PyStr) : PyStr := s.map pyUpperN

/-- Python `str.strip()`: drop whitespace from both ends. -/
def pyStrip (s : PyStr) : PyStr :=
  ((s.dropWhile isWsN).reverse.dropWhile isWsN).reverse

/-- `re.sub(r'\s+', ' ', s)` walked with an "inside a whitespace run" flag:
the first character of each run becomes one space, the rest are dropped. -/
def collapseWsAux : Bool → PyStr → PyStr
  | _, [] => []
  | inRun, c :: rest =>
    if isWsN c then
      if inRun then collapseWsAux true rest
      else 32 :: collapseWsAux true rest
    else c :: collapseWsAux false rest

/-- `re.sub(r'\s+', ' ', s)`: replace each maximal whitespace run by one space. -/
def collapseWs (s : PyStr) : PyStr := collapseWsAux false s

/-- `needle` is a prefix of `hay` (helper for Python's `in`). -/
def pyStarts : PyStr → PyStr → Bool
  | [], _ => true
  | _ :: _, [] => false
  | a :: as, b :: bs => a = b && pyStarts as bs

/-- Python's `needle in hay` contiguous-substring test. -/
def pySubstr (needle hay : PyStr) : Bool :=
  pyStarts needle hay ||
    (match hay with
     | [] => false
     | _ :: t => pySubstr needle t)

/-- Python `str.title()` walked with a "previous character was cased" flag. -/
def pyTitleAux : Bool → PyStr → PyStr
  | _, [] => []
  | prev, c :: rest =>
    (if isCasedN c then (if prev then pyLowerN c else pyUpperN c) else c)
      :: pyTitleAux (isCasedN c) rest

/-- Python `str.title()`. -/
def pyTitle (s : PyStr) : PyStr := pyTitleAux false s

/-- Python `str.split()` with no argument: whitespace-separated words. -/
def pyWordsAux : PyStr → PyStr → List PyStr
  | [], acc => if acc = [] then [] else [acc.reverse]
  | c :: rest, acc =>
    if isWsN c then
      (if acc = [] then pyWordsAux rest [] else acc.reverse :: pyWordsAux rest [])
    else pyWordsAux rest (c :: acc)

def pyWords (s : PyStr) : List PyStr := pyWordsAux s []

/-- Python `s.split(sep)` for a single-codepoint separator, keeping empties. -/
def pySplitOnAux (sep : Nat) : PyStr → PyStr → List PyStr
  | [], acc => [acc.reverse]
  | c :: rest, acc =>
    if c = sep then acc.reverse :: pySplitOnAux sep rest []
    else pySplitOnAux sep rest (c :: acc)

/-- `file_content.split('\n')`. -/
def splitLines (s : PyStr) : List PyStr := pySplitOnAux 10 s []

/-- Python truthiness of an optional string (`None` and `''` are falsy). -/
def optTruthy : Option PyStr → Bool
  | none => false
  | some s => !s.isEmpty

/-!
A small backtracking matcher for the regular expressions the program uses.
Every quantified subexpression in those patterns is a single-character
class, so a pattern is a sequence of tokens, each one a character class
with a repetition range, an optional capture-group index, and a greedy or
lazy flag, plus an optional end anchor `$`.  Backtracking tries repetition
counts in Python's priority order (greedy: longest first; lazy: shortest
first), and `reSearch` scans start positions left to right, which is
exactly `re.search`'s leftmost-match rule.
-/

/-- One regex token: a character class repeated between `lo` and `hi`
(`hi = none` means unbounded), greedily or lazily, optionally captured. -/
structure Tok where
  cls : Nat → Bool
  lo : Nat
  hi : Option Nat
  greedy : Bool
  grp : Option Nat

/-- A pattern element: a character-class token or the `$` anchor. -/
inductive RTok where
  | chars (t : Tok)
  | eos

/-- Single mandatory character. -/
def tok1 (p : Nat → Bool) : RTok := .chars ⟨p, 1, some 1, true, none⟩

/-- Single mandatory captured character. -/
def tok1g (p : Nat → Bool) (g : Nat) : RTok := .chars ⟨p, 1, some 1, true, some g⟩

/-- Literal character. -/
def tokLit (c : Nat) : RTok := tok1 (fun x => x = c)

/-- Case-insensitive literal character (`re.IGNORECASE`). -/
def tokLitCI (c : Nat) : RTok := tok1 (fun x => pyLowerN x = pyLowerN c)

/-- `p+` greedy, optionally captured. -/
def tokPlus (p : Nat → Bool) (g : Option Nat) : RTok := .chars ⟨p, 1, none, true, g⟩

/-- `p*` greedy. -/
def tokStar (p : Nat → Bool) : RTok := .chars ⟨p, 0, none, true, none⟩

/-- `p+?` lazy, optionally captured. -/
def tokPlusLazy (p : Nat → Bool) (g : Option Nat) : RTok := .chars ⟨p, 1, none, false, g⟩

/-- Captures recorded during a match attempt, newest first. -/
abbrev Caps := List (Nat × PyStr)

/-- Match the token list against a prefix of `s` (trailing input may remain),
returning the captures of the first match in backtracking priority order. -/
def matchToks : List RTok → PyStr → Caps → Option Caps
  | [], _, caps => some caps
  | .eos :: rest, s, caps =>
    if s = [] ∨ s = [10] then matchToks rest s caps else none
  | .chars t :: rest, s, caps =>
    let run := (s.takeWhile t.cls).length
    let hi := min run (t.hi.getD run)
    if hi < t.lo then none
    else
      let ks :=
        if t.greedy then (List.range (hi - t.lo + 1)).map (fun i => hi - i)
        else (List.range (hi - t.lo + 1)).map (fun i => t.lo + i)
      ks.findSome? (fun k =>
        let caps2 := match t.grp with
          | some i => (i, s.take k) :: caps
          | none => caps
        matchToks rest (s.drop k) caps2)

/-- `re.search`: try every start position, leftmost match wins. -/
def reSearch (toks : List RTok) (s : PyStr) : Option Caps :=
  match matchToks toks s [] with
  | some caps => some caps
  | none =>
    match s with
    | [] => none
    | _ :: rest => reSearch toks rest

/-- `re.match`: anchored at the start of the string. -/
def reMatch (toks : List RTok) (s : PyStr) : Option Caps := matchToks toks s []

/-- Captured text of group `i` (defined groups only are looked up). -/
def getCap (caps : Caps) (i : Nat) : PyStr :=
  match caps.find? (fun kv => kv.1 = i) with
  | some kv => kv.2
  | none => []

/-! Character classes appearing in the program's patterns. -/

/-- The class `[а-яА-Я\s-]`. -/
def isCyrWsHyp (c : Nat) : Bool := isCyrN c || isWsN c || c = 45

/-- The class `[,\s]`. -/
def isCommaWs (c : Nat) : Bool := c = 44 || isWsN c

/-- The class `.` (anything but a newline). -/
def isDotCls (c : Nat) : Bool := !(c = 10)

/-- The class `\S`. -/
def isNonWs (c : Nat) : Bool := !isWsN c

/-- The class `[^\d]`. -/
def isNonDigit (c : Nat) : Bool := !isDigitN c

/-- The class `[^\n]`. -/
def isNonNl (c : Nat) : Bool := !(c = 10)

/-- Pattern `([а-яА-Я\s-]+)\((\d+),\s*([а-яА-Я])\)` (structured names). -/
def patStructured : List RTok :=
  [tokPlus isCyrWsHyp (some 1), tokLit 40, tokPlus isDigitN (some 2), tokLit 44,
   tokStar isWsN, tok1g isCyrN 3, tokLit 41]

/-- Pattern `([а-яА-Я]{2})\s+([а-яА-Я]+)\s+(\d+)`. -/
def patAnalysis1 : List RTok :=
  [.chars ⟨isCyrN, 2, some 2, true, some 1⟩, tokPlus isWsN none,
   tokPlus isCyrN (some 2), tokPlus isWsN none, tokPlus isDigitN (some 3)]

/-- Pattern `([а-яА-Я\s-]+)\s+(\d+)[,\s]+\S*\s*(\d+)`. -/
def patAnalysis2 : List RTok :=
  [tokPlus isCyrWsHyp (some 1), tokPlus isWsN none, tokPlus isDigitN (some 2),
   tokPlus isCommaWs none, .chars ⟨isNonWs, 0, none, true, none⟩, tokStar isWsN,
   tokPlus isDigitN (some 3)]

/-- Pattern `([а-яА-Я\s-]+?)\s+\d+[,\s]+\S*\s*(\d+)`. -/
def patAnalysis3 : List RTok :=
  [tokPlusLazy isCyrWsHyp (some 1), tokPlus isWsN none, tokPlus isDigitN none,
   tokPlus isCommaWs none, .chars ⟨isNonWs, 0, none, true, none⟩, tokStar isWsN,
   tokPlus isDigitN (some 2)]

/-- Pattern `(.+?)\s+(\d+)$`. -/
def patAnalysis4 : List RTok :=
  [tokPlusLazy isDotCls (some 1), tokPlus isWsN none, tokPlus isDigitN (some 2), .eos]

/-- The `type` tag of a parsed identifier: which pattern family matched. -/
inductive PType where
  | structured
  | analysis
  | unknown
deriving DecidableEq

/-- Result of `parse_structured_name`: the dict
`{surface, number, letter, original, type}`. -/
structure Parsed where
  surface : PyStr
  number : Option PyStr
  letter : Option PyStr
  original : PyStr
  type : PType
deriving DecidableEq

/-- `parse_structured_name` from `app.py`, lines 82-145: try the structured
pattern, then the four analysis patterns in order, else fall back to the
normalized (stripped) text with no number and no letter. -/
def parse_structured_name (name : PyStr) : Parsed :=
  let normalized := pyStrip name
  match reSearch patStructured normalized with
  | some caps =>
    { surface := pyStrip (getCap caps 1), number := some (getCap caps 2),
      letter := some (pyUpperStr (getCap caps 3)), original := normalized,
      type := .structured }
  | none =>
    let tryPat := fun (pat : List RTok) =>
      (reSearch pat normalized).map (fun caps =>
        ({ surface := pyStrip (getCap caps 1), number := some (getCap caps 2),
           letter := none, original := normalized, type := .analysis } : Parsed))
    match tryPat patAnalysis1 with
    | some p => p
    | none =>
      match tryPat patAnalysis2 with
      | some p => p
      | none =>
        match tryPat patAnalysis3 with
        | some p => p
        | none =>
          match tryPat patAnalysis4 with
          | some p => p
          | none =>
            { surface := normalized, number := none, letter := none,
              original := normalized, type := .unknown }

/-- `re.search(p1 + '\s*' + p2, s)` for literal words `p1`, `p2` separated by
optional whitespace, as used by the alias table of `normalize_surface_name`. -/
def searchSep (w1 w2 : PyStr) (s : PyStr) : Bool :=
  reSearch ((w1.map tokLit) ++ [tokStar isWsN] ++ (w2.map tokLit)) s |>.isSome

/-- `normalize_surface_name` from `app.py`, lines 147-170: lowercase,
collapse whitespace, then map through the ordered alias table, else
title-case the normalized text. -/
def normalize_surface_name (surface : PyStr) : PyStr :=
  let normalized := collapseWs (pyLowerStr (pyStrip surface))
  if searchSep (strToPy "кпп") (strToPy "вд") normalized then strToPy "КПП ВД"
  else if searchSep (strToPy "кпп") (strToPy "нд-1") normalized then strToPy "КПП НД-1"
  else if searchSep (strToPy "кпп") (strToPy "нд-2") normalized then strToPy "КПП НД-2"
  else if searchSep (strToPy "кпп") (strToPy "нд") normalized then strToPy "КПП НД"
  else if pySubstr (strToPy "шпп") normalized then strToPy "ШПП"
  else if pySubstr (strToPy "эпк") normalized then strToPy "ЭПК"
  else if searchSep (strToPy "пс") (strToPy "кш") normalized then strToPy "ПС КШ"
  else pyTitle normalized

/-! The matching engine: `find_best_match` and `match_samples_improved`. -/

/-- A row of a measurement table (`sample_data` dict of
`parse_chemical_tables_improved`). -/
structure SampleData where
  original_name : PyStr
  measurements : List PyStr
  parsed : Parsed
deriving DecidableEq

/-- An entry of the reference order list (dict built by
`parse_correct_order`). -/
structure RefSample where
  order : Nat
  correct_name : PyStr
  parsed : Parsed
deriving DecidableEq

/-- The `match_quality` tag. -/
inductive MQuality where
  | exact
  | part
deriving DecidableEq

/-- A match dict appended by `match_samples_improved`. -/
structure MatchRow where
  correct_name : PyStr
  original_name : PyStr
  measurements : List PyStr
  order : Nat
  match_quality : MQuality
  analysis_surface : PyStr
  correct_surface : PyStr
  analysis_number : Option PyStr
  correct_number : Option PyStr
deriving DecidableEq

/-- The additive compatibility score of `find_best_match` (`app.py`
lines 241-261) for one (analysis, reference) pair of parsed identifiers. -/
def matchScore (ap cp : Parsed) : Nat :=
  let asrf := normalize_surface_name ap.surface
  let csrf := normalize_surface_name cp.surface
  let s1 := if asrf = csrf then 100
            else if pySubstr asrf csrf || pySubstr csrf asrf then 50
            else 0
  let s2 := if optTruthy ap.number && optTruthy cp.number &&
               decide (ap.number = cp.number) then 50 else 0
  let s3 := if optTruthy ap.letter && optTruthy cp.letter &&
               decide (ap.letter = cp.letter) then 25 else 0
  let s4 := if optTruthy ap.number && optTruthy cp.number &&
               pySubstr (ap.number.getD []) (cp.number.getD []) then 10 else 0
  let s5 := if optTruthy cp.number && optTruthy ap.number &&
               pySubstr (cp.number.getD []) (ap.number.getD []) then 10 else 0
  s1 + s2 + s3 + s4 + s5

/-- The loop of `find_best_match` (`app.py` lines 235-266): running
`(best_score, best_match)` pair, updated on a strictly greater score. -/
def bestFold (a : SampleData) (correct_samples : List RefSample)
    (acc : Nat × Option RefSample) : Nat × Option RefSample :=
  correct_samples.foldl
    (fun acc r =>
      let sc := matchScore a.parsed r.parsed
      if acc.1 < sc then (sc, some r) else acc)
    acc

/-- `find_best_match` from `app.py`, lines 224-269: fold over all reference
entries keeping the best strictly-greater score, return it only when the
best score reaches 50. -/
def find_best_match (a : SampleData) (correct_samples : List RefSample) :
    Option RefSample :=
  let best := bestFold a correct_samples (0, none)
  if 50 ≤ best.1 then best.2 else none

/-- The match dict built in pass 1 / pass 2 of `match_samples_improved`. -/
def mkMatchRow (a : SampleData) (r : RefSample) (q : MQuality) : MatchRow :=
  { correct_name := r.correct_name, original_name := a.original_name,
    measurements := a.measurements, order := r.order, match_quality := q,
    analysis_surface := a.parsed.surface, correct_surface := r.parsed.surface,
    analysis_number := a.parsed.number, correct_number := r.parsed.number }

/-- Mutable state of `match_samples_improved`: the `matched` list and the
`used_correct_indices` set (kept as the list of inserted orders). -/
structure MState where
  matched : List MatchRow
  used : List Nat
deriving DecidableEq

/-- One pass-1 iteration (`app.py` lines 279-294): find the best match over
all reference entries and assign it only when its order is not yet used. -/
def pass1Step (correct_samples : List RefSample) (st : MState)
    (a : SampleData) : MState :=
  match find_best_match a correct_samples with
  | some r =>
    if st.used.contains r.order then st
    else ⟨st.matched ++ [mkMatchRow a r MQuality.exact], r.order :: st.used⟩
  | none => st

/-- Pass-2 surface condition (`app.py` lines 316-319). -/
def surfaceMatch2 (asrf csrf : PyStr) : Bool :=
  pySubstr asrf csrf || pySubstr csrf asrf ||
  (pyWords asrf).any (fun w => pySubstr w csrf) ||
  (pyWords csrf).any (fun w => pySubstr w asrf)

/-- Pass-2 number condition (`app.py` lines 322-323). -/
def numberMatch2 (an cn : Option PyStr) : Bool :=
  optTruthy an && optTruthy cn &&
  (pySubstr (an.getD []) (cn.getD []) || pySubstr (cn.getD []) (an.getD []))

/-- Pass-2 inner loop over reference entries (`app.py` lines 307-338):
take the first unused entry satisfying both partial-match conditions. -/
def pass2Loop (a : SampleData) (st : MState) : List RefSample → MState
  | [] => st
  | r :: rest =>
    if st.used.contains r.order then pass2Loop a st rest
    else if surfaceMatch2 (normalize_surface_name a.parsed.surface)
              (normalize_surface_name r.parsed.surface) &&
            numberMatch2 a.parsed.number r.parsed.number then
      ⟨st.matched ++ [mkMatchRow a r MQuality.part], r.order :: st.used⟩
    else pass2Loop a st rest

/-- One pass-2 iteration (`app.py` lines 297-338): skip entries whose
`original_name` already occurs in `matched`, else run the inner loop. -/
def pass2Step (correct_samples : List RefSample) (st : MState)
    (a : SampleData) : MState :=
  if st.matched.any (fun m => m.original_name = a.original_name) then st
  else pass2Loop a st correct_samples

/-- `match_samples_improved` from `app.py`, lines 271-343: pass 1, pass 2,
then a stable sort of `matched` by `order`. -/
def match_samples_improved (analysis_samples : List SampleData)
    (correct_samples : List RefSample) : List MatchRow :=
  let st1 := analysis_samples.foldl (pass1Step correct_samples) ⟨[], []⟩
  let st2 := analysis_samples.foldl (pass2Step correct_samples) st1
  st2.matched.insertionSort (fun x y => x.order ≤ y.order)

/-- The matching loop of `main` (`app.py` lines 483-485): one
`match_samples_improved` call per category, accumulated with `extend`;
the `used` set starts empty for every category. -/
def runMatch (chemical_tables : List (PyStr × List SampleData))
    (correct_samples : List RefSample) : List MatchRow :=
  chemical_tables.foldl
    (fun acc kv => acc ++ match_samples_improved kv.2 correct_samples) []

/-! Ingestion: `parse_chemical_tables_improved`. -/

/-- Pattern `Марка стали:\s*([^\n]+)` compiled with `re.IGNORECASE`. -/
def patSteel : List RTok :=
  ((strToPy "Марка стали:").map tokLitCI) ++ [tokStar isWsN, tokPlus isNonNl (some 1)]

/-- The steel-grade heading search (`app.py` line 188). -/
def steelSearch (line : PyStr) : Option PyStr :=
  (reSearch patSteel line).map (fun caps => getCap caps 1)

/-- Pattern `^\s*\d+\s+[^\d]` used by `re.match` on candidate rows. -/
def patRow : List RTok :=
  [tokStar isWsN, tokPlus isDigitN none, tokPlus isWsN none, tok1 isNonDigit]

/-- The technical-line filter (`app.py` line 197). -/
def isBoilerplate (line : PyStr) : Bool :=
  pySubstr (strToPy "Требования ТУ") line || pySubstr (strToPy "14-3Р-55-2001") line ||
  pySubstr (strToPy "---") line || pySubstr (strToPy "###") line

/-- `re.split(r'\s{2,}', line)` walked with the current token (reversed)
and a buffer of pending whitespace: a buffered run of length at least two
separates tokens, a single buffered space stays inside the token. -/
def splitWs2Aux : PyStr → PyStr → PyStr → List PyStr
  | [], cur, wsbuf =>
    if 2 ≤ wsbuf.length then [cur.reverse, []] else [(wsbuf ++ cur).reverse]
  | c :: rest, cur, wsbuf =>
    if isWsN c then splitWs2Aux rest cur (c :: wsbuf)
    else if 2 ≤ wsbuf.length then cur.reverse :: splitWs2Aux rest [c] []
    else splitWs2Aux rest (c :: (wsbuf ++ cur)) []

/-- `re.split(r'\s{2,}', line)`: split on maximal runs of two or more
whitespace characters. -/
def splitWs2 (s : PyStr) : List PyStr := splitWs2Aux s [] []

/-- Python dict assignment `d[k] = v` on an insertion-ordered assoc list. -/
def dictSet (d : List (PyStr × List SampleData)) (k : PyStr)
    (v : List SampleData) : List (PyStr × List SampleData) :=
  if d.any (fun kv => kv.1 = k) then
    d.map (fun kv => if kv.1 = k then (k, v) else kv)
  else d ++ [(k, v)]

/-- Python dict lookup `d.get(k)`. -/
def dictGet (d : List (PyStr × List SampleData)) (k : PyStr) :
    Option (List SampleData) :=
  (d.find? (fun kv => kv.1 = k)).map (fun kv => kv.2)

/-- Loop state of `parse_chemical_tables_improved`: the accumulated tables
dict, `current_steel_grade` and `current_table`. -/
structure TState where
  tables : List (PyStr × List SampleData)
  grade : Option PyStr
  cur : List SampleData
deriving DecidableEq

/-- Python truthiness of `current_steel_grade` (None and `''` are falsy). -/
def truthyGrade : Option PyStr → Bool
  | none => false
  | some g => !g.isEmpty

/-- The sample row a line contributes, when it is a data row: the line must
match `patRow` and split into at least two fields (`app.py` lines 201-216). -/
def rowParse (line : PyStr) : Option SampleData :=
  if (reMatch patRow line).isSome then
    match splitWs2 line with
    | _ :: name :: rest =>
      some { original_name := name, measurements := rest,
             parsed := parse_structured_name name }
    | _ => none
  else none

/-- One loop iteration of `parse_chemical_tables_improved`
(`app.py` lines 184-216). -/
def tableStep (st : TState) (rawLine : PyStr) : TState :=
  let line := pyStrip rawLine
  match steelSearch line with
  | some g =>
    let tables :=
      if truthyGrade st.grade ∧ st.cur ≠ [] then
        dictSet st.tables (st.grade.getD []) st.cur
      else st.tables
    { tables := tables, grade := some (pyStrip g), cur := [] }
  | none =>
    if isBoilerplate line then st
    else if truthyGrade st.grade then
      match rowParse line with
      | some sd => { st with cur := st.cur ++ [sd] }
      | none => st
    else st

/-- `parse_chemical_tables_improved` from `app.py`, lines 172-222. -/
def parse_chemical_tables_improved (file_content : PyStr) :
    List (PyStr × List SampleData) :=
  if file_content = [] then []
  else
    let st := (splitLines file_content).foldl tableStep ⟨[], none, []⟩
    if truthyGrade st.grade ∧ st.cur ≠ [] then
      dictSet st.tables (st.grade.getD []) st.cur
    else st.tables

/-! Helper lemmas about the best-match fold. -/

lemma bestFold_cons (a : SampleData) (r : RefSample) (c : List RefSample)
    (acc : Nat × Option RefSample) :
    bestFold a (r :: c) acc =
      bestFold a c
        (if acc.1 < matchScore a.parsed r.parsed
         then (matchScore a.parsed r.parsed, some r) else acc) := rfl

/-- The running best of `find_best_match`'s loop is either the initial
accumulator (when nothing beats it) or the first entry attaining the
maximum score, with everything before it strictly smaller and everything
after it no larger. -/
lemma bestFold_spec (a : SampleData) :
    ∀ (c : List RefSample) (acc : Nat × Option RefSample),
      (bestFold a c acc = acc ∧ ∀ x ∈ c, matchScore a.parsed x.parsed ≤ acc.1)
      ∨ (∃ l1 r l2, c = l1 ++ r :: l2
          ∧ bestFold a c acc = (matchScore a.parsed r.parsed, some r)
          ∧ acc.1 < matchScore a.parsed r.parsed
          ∧ (∀ x ∈ l1, matchScore a.parsed x.parsed < matchScore a.parsed r.parsed)
          ∧ (∀ x ∈ l2, matchScore a.parsed x.parsed ≤ matchScore a.parsed r.parsed)) := by
  intro c
  induction c with
  | nil => exact fun acc => Or.inl ⟨rfl, by simp⟩
  | cons r c' ih =>
    intro acc
    rw [bestFold_cons]
    by_cases hlt : acc.1 < matchScore a.parsed r.parsed
    · rw [if_pos hlt]
      rcases ih (matchScore a.parsed r.parsed, some r) with
        ⟨heq, hall⟩ | ⟨l1, rr, l2, hsplit, heq, hgt, hl1, hl2⟩
      · refine Or.inr ⟨[], r, c', by simp, heq, hlt, by simp, ?_⟩
        exact fun x hx => hall x hx
      · refine Or.inr ⟨r :: l1, rr, l2, by simp [hsplit], heq, ?_, ?_, hl2⟩
        · exact lt_trans hlt hgt
        · intro x hx
          rcases List.mem_cons.mp hx with hx | hx
          · subst hx; exact hgt
          · exact hl1 x hx
    · rw [if_neg hlt]
      rcases ih acc with ⟨heq, hall⟩ | ⟨l1, rr, l2, hsplit, heq, hgt, hl1, hl2⟩
      · refine Or.inl ⟨heq, ?_⟩
        intro x hx
        rcases List.mem_cons.mp hx with hx | hx
        · subst hx; omega
        · exact hall x hx
      · refine Or.inr ⟨r :: l1, rr, l2, by simp [hsplit], heq, hgt, ?_, hl2⟩
        intro x hx
        rcases List.mem_cons.mp hx with hx | hx
        · subst hx; omega
        · exact hl1 x hx

/-- When `find_best_match` returns an entry, it is the first maximum of the
score over the whole reference list and its score is at least 50. -/
lemma find_best_match_some {a : SampleData} {c : List RefSample} {r : RefSample}
    (h : find_best_match a c = some r) :
    ∃ l1 l2, c = l1 ++ r :: l2
      ∧ 50 ≤ matchScore a.parsed r.parsed
      ∧ (∀ x ∈ l1, matchScore a.parsed x.parsed < matchScore a.parsed r.parsed)
      ∧ ∀ x ∈ c, matchScore a.parsed x.parsed ≤ matchScore a.parsed r.parsed := by
  unfold find_best_match at h
  rcases bestFold_spec a c (0, none) with ⟨heq, _⟩ | ⟨l1, rr, l2, hsplit, heq, _, hl1, hl2⟩
  · rw [heq] at h; simp at h
  · rw [heq] at h
    by_cases h50 : 50 ≤ matchScore a.parsed rr.parsed
    · rw [if_pos h50] at h
      cases h
      refine ⟨l1, l2, hsplit, h50, hl1, ?_⟩
      intro x hx
      rw [hsplit] at hx
      rcases List.mem_append.mp hx with hx | hx
      · exact le_of_lt (hl1 x hx)
      · rcases List.mem_cons.mp hx with hx | hx
        · subst hx; exact le_refl _
        · exact hl2 x hx
    · rw [if_neg h50] at h; cases h

/-- When `find_best_match` returns nothing, every reference entry scores
below 50 against the measurement entry. -/
lemma find_best_match_none {a : SampleData} {c : List RefSample}
    (h : find_best_match a c = none) :
    ∀ x ∈ c, matchScore a.parsed x.parsed < 50 := by
  unfold find_best_match at h
  rcases bestFold_spec a c (0, none) with ⟨heq, hall⟩ | ⟨l1, rr, l2, hsplit, heq, _, hl1, hl2⟩
  · intro x hx
    have := hall x hx
    omega
  · rw [heq] at h
    by_cases h50 : 50 ≤ matchScore a.parsed rr.parsed
    · rw [if_pos h50] at h; cases h
    · intro x hx
      rw [hsplit] at hx
      rcases List.mem_append.mp hx with hx | hx
      · have := hl1 x hx; omega
      · rcases List.mem_cons.mp hx with hx | hx
        · subst hx; omega
        · have := hl2 x hx; omega

/-- The additive score never exceeds 195. -/
lemma matchScore_le (ap cp : Parsed) : matchScore ap cp ≤ 195 := by
  unfold matchScore
  dsimp only
  split_ifs <;> norm_num

/-! Concrete entries used by witnesses and counterexamples. -/

/-- Parsed identifier of the reference line text `ЭПК(1,А)`. -/
def exParsed : Parsed := parse_structured_name (strToPy "ЭПК(1,А)")

/-- A measurement entry whose identifier parses like `ЭПК(1,А)`. -/
def exSample : SampleData :=
  { original_name := strToPy "эпк 1"
    measurements := [strToPy "0,5"]
    parsed := parse_structured_name (strToPy "эпк 1") }

/-- A reference entry of rank 1 named `ЭПК(1,А)`. -/
def exRef : RefSample :=
  { order := 1
    correct_name := strToPy "ЭПК(1,А)"
    parsed := exParsed }

/-- C2, counterexample: the pair of parsed identifiers coming from the
reference line `ЭПК(1,А)` matched against itself scores 195 — equal
numbers also earn both 10-point substring bonuses on top of the 50-point
equality bonus — so the additive score is not bounded by 185. -/
theorem score_bounds_counterexample :
    matchScore exParsed exParsed = 195 ∧ 185 < matchScore exParsed exParsed := by
  decide

/-- C2 (amended): every additive score lies in [0, 195] (the maximum 185 in
the claim is wrong because equal numeric ids additionally earn both
10-point substring bonuses), and a candidate returned by pass 1's
`find_best_match` always has score at least 50. -/
theorem score_bounds :
    (∀ ap cp : Parsed, matchScore ap cp ≤ 195) ∧
    (∀ (a : SampleData) (c : List RefSample) (r : RefSample),
      find_best_match a c = some r → 50 ≤ matchScore a.parsed r.parsed) := by
  constructor
  · exact matchScore_le
  · intro a c r h
    obtain ⟨l1, l2, _, h50, _, _⟩ := find_best_match_some h
    exact h50

/-- C2, witness: the bound and the pass-1 threshold at a concrete pair. -/
theorem score_bounds_witness :
    matchScore exParsed exParsed ≤ 195 ∧ 50 ≤ matchScore exSample.parsed exRef.parsed := by
  constructor
  · exact score_bounds.1 exParsed exParsed
  · exact score_bounds.2 exSample [exRef] exRef (by decide)

/-- C5: `parse_structured_name` is total by construction; its `original`
field is always the stripped input, and whenever no pattern matched (the
`unknown` tier) the whole result degrades to the normalized raw text as
`surface` with `number` and `letter` absent. -/
theorem parser_totality (s : PyStr) :
    (parse_structured_name s).original = pyStrip s ∧
    ((parse_structured_name s).type = PType.unknown →
      parse_structured_name s =
        { surface := pyStrip s, number := none, letter := none,
          original := pyStrip s, type := PType.unknown }) := by
  unfold parse_structured_name
  dsimp only
  split
  · exact ⟨rfl, by simp⟩
  repeat'
    first
      | (split
         · rename_i hmap
           rw [Option.map_eq_some'] at hmap
           obtain ⟨caps, hse, rfl⟩ := hmap
           exact ⟨rfl, by simp⟩)
      | exact ⟨rfl, fun _ => rfl⟩

/-- C5, witness: the fallback at the concrete input `"qq"`. -/
theorem parser_totality_witness :
    parse_structured_name (strToPy "qq") =
      { surface := pyStrip (strToPy "qq"), number := none, letter := none,
        original := pyStrip (strToPy "qq"), type := PType.unknown } :=
  (parser_totality (strToPy "qq")).2 (by decide)

/-- Maximal digit runs of a string, in order. -/
def digitRunsAux : PyStr → PyStr → List PyStr
  | [], acc => if acc = [] then [] else [acc.reverse]
  | c :: rest, acc =>
    if isDigitN c then digitRunsAux rest (c :: acc)
    else if acc = [] then digitRunsAux rest []
    else acc.reverse :: digitRunsAux rest []

/-- Modelled from the spec (§4.1 fallback): "extract the last integer
sequence anywhere in the text", the value the spec says the fallback
returns as `number`.  The code of `parse_structured_name` has no such
extraction; this definition exists only to state the claim's prediction. -/
def specLastIntSeq (s : PyStr) : Option PyStr := (digitRunsAux s []).getLast?

/-- C7, counterexample: on `"abc 123 def"` no pattern matches and the text
contains the integer sequence `123`, so the claim predicts
`number = "123"` with confidence unknown; the code's fallback returns
`number = None`. -/
theorem parser_fallback_counterexample :
    reSearch patStructured (pyStrip (strToPy "abc 123 def")) = none ∧
    reSearch patAnalysis1 (pyStrip (strToPy "abc 123 def")) = none ∧
    reSearch patAnalysis2 (pyStrip (strToPy "abc 123 def")) = none ∧
    reSearch patAnalysis3 (pyStrip (strToPy "abc 123 def")) = none ∧
    reSearch patAnalysis4 (pyStrip (strToPy "abc 123 def")) = none ∧
    specLastIntSeq (pyStrip (strToPy "abc 123 def")) = some (strToPy "123") ∧
    (parse_structured_name (strToPy "abc 123 def")).number = none ∧
    (parse_structured_name (strToPy "abc 123 def")).type = PType.unknown := by
  decide

/-- C7 (amended): when neither the structured pattern nor any loose
analytic pattern matches, the fallback returns the whole normalized text as
`surface` with `number` and `letter` absent and confidence unknown — no
integer sequence is extracted from the text. -/
theorem parser_fallback (s : PyStr)
    (h0 : reSearch patStructured (pyStrip s) = none)
    (h1 : reSearch patAnalysis1 (pyStrip s) = none)
    (h2 : reSearch patAnalysis2 (pyStrip s) = none)
    (h3 : reSearch patAnalysis3 (pyStrip s) = none)
    (h4 : reSearch patAnalysis4 (pyStrip s) = none) :
    parse_structured_name s =
      { surface := pyStrip s, number := none, letter := none,
        original := pyStrip s, type := PType.unknown } := by
  unfold parse_structured_name
  simp only [h0, h1, h2, h3, h4, Option.map_none']

/-- C7, witness: the amended fallback at the concrete input `"abc 123 def"`. -/
theorem parser_fallback_witness :
    parse_structured_name (strToPy "abc 123 def") =
      { surface := pyStrip (strToPy "abc 123 def"), number := none, letter := none,
        original := pyStrip (strToPy "abc 123 def"), type := PType.unknown } :=
  parser_fallback (strToPy "abc 123 def") (by decide) (by decide) (by decide)
    (by decide) (by decide)

/-- C8, counterexample: the measurement row `5  проба` has an extractable
identifier but no measurement values; the claim says it is dropped, but it
becomes a MeasurementEntry with an empty measurement list. -/
theorem malformed_rows_counterexample :
    parse_chemical_tables_improved (strToPy "Марка стали: Ст20\n5  проба") =
      [(strToPy "Ст20",
        [{ original_name := strToPy "проба", measurements := [],
           parsed := { surface := strToPy "проба", number := none, letter := none,
                       original := strToPy "проба", type := PType.unknown } }])] := by
  decide

/-- C8 (amended): inside a category, a measurement row with no extractable
identifier (the row regex fails, or splitting on double spaces yields fewer
than two fields) is silently dropped — the loop state is unchanged — while
a row with an identifier but no measurement values is kept as a
MeasurementEntry with an empty measurement list. -/
theorem malformed_rows (st : TState) (line : PyStr)
    (hs : steelSearch (pyStrip line) = none)
    (hb : isBoilerplate (pyStrip line) = false)
    (hg : truthyGrade st.grade = true) :
    (rowParse (pyStrip line) = none → tableStep st line = st) ∧
    (∀ sd, rowParse (pyStrip line) = some sd →
      tableStep st line = { st with cur := st.cur ++ [sd] }) ∧
    (∀ num name, (reMatch patRow (pyStrip line)).isSome = true →
      splitWs2 (pyStrip line) = [num, name] →
      rowParse (pyStrip line) =
        some { original_name := name, measurements := [],
               parsed := parse_structured_name name }) := by
  refine ⟨?_, ?_, ?_⟩
  · intro hnone
    unfold tableStep
    simp only [hs, hb, hg, if_neg, Bool.false_eq_true, if_false, if_true, hnone]
  · intro sd hsome
    unfold tableStep
    simp only [hs, hb, hg, Bool.false_eq_true, if_false, if_true, hsome]
  · intro num name hm hsplit
    unfold rowParse
    rw [if_pos hm, hsplit]

/-!
An index-tagged copy of `match_samples_improved`.  Each measurement entry
carries its position in the input list and each produced match dict carries
the position of the entry that produced it; erasing the tags gives back
`match_samples_improved` exactly.  The tags state which MeasurementEntry a
MatchResult came from, which the rows themselves do not record.
-/

/-- Tagged matching state. -/
structure MStateT where
  matched : List (Nat × MatchRow)
  used : List Nat
deriving DecidableEq

/-- Tag erasure. -/
def eraseT (st : MStateT) : MState := ⟨st.matched.map Prod.snd, st.used⟩

@[simp] lemma eraseT_used (st : MStateT) : (eraseT st).used = st.used := rfl

@[simp] lemma eraseT_matched (st : MStateT) :
    (eraseT st).matched = st.matched.map Prod.snd := rfl

/-- Tagged pass-1 iteration. -/
def pass1StepT (correct_samples : List RefSample) (st : MStateT)
    (ta : Nat × SampleData) : MStateT :=
  match find_best_match ta.2 correct_samples with
  | some r =>
    if st.used.contains r.order then st
    else ⟨st.matched ++ [(ta.1, mkMatchRow ta.2 r MQuality.exact)], r.order :: st.used⟩
  | none => st

/-- Tagged pass-2 inner loop. -/
def pass2LoopT (ta : Nat × SampleData) (st : MStateT) : List RefSample → MStateT
  | [] => st
  | r :: rest =>
    if st.used.contains r.order then pass2LoopT ta st rest
    else if surfaceMatch2 (normalize_surface_name ta.2.parsed.surface)
              (normalize_surface_name r.parsed.surface) &&
            numberMatch2 ta.2.parsed.number r.parsed.number then
      ⟨st.matched ++ [(ta.1, mkMatchRow ta.2 r MQuality.part)], r.order :: st.used⟩
    else pass2LoopT ta st rest

/-- Tagged pass-2 iteration. -/
def pass2StepT (correct_samples : List RefSample) (st : MStateT)
    (ta : Nat × SampleData) : MStateT :=
  if st.matched.any (fun m => m.2.original_name = ta.2.original_name) then st
  else pass2LoopT ta st correct_samples

/-- Tagged `match_samples_improved`. -/
def match_samples_tagged (tagged : List (Nat × SampleData))
    (correct_samples : List RefSample) : List (Nat × MatchRow) :=
  let st1 := tagged.foldl (pass1StepT correct_samples) ⟨[], []⟩
  let st2 := tagged.foldl (pass2StepT correct_samples) st1
  st2.matched.insertionSort (fun x y => x.2.order ≤ y.2.order)

lemma eraseT_pass1StepT (c : List RefSample) (st : MStateT) (ta : Nat × SampleData) :
    eraseT (pass1StepT c st ta) = pass1Step c (eraseT st) ta.2 := by
  unfold pass1StepT pass1Step eraseT
  cases find_best_match ta.2 c with
  | none => rfl
  | some r =>
    dsimp only
    by_cases h : st.used.contains r.order
    · rw [if_pos h, if_pos h]
    · rw [if_neg h, if_neg h]
      simp

lemma eraseT_pass2LoopT (ta : Nat × SampleData) :
    ∀ (refs : List RefSample) (st : MStateT),
      eraseT (pass2LoopT ta st refs) = pass2Loop ta.2 (eraseT st) refs := by
  intro refs
  induction refs with
  | nil => intro st; rfl
  | cons r rest ih =>
    intro st
    unfold pass2LoopT pass2Loop
    simp only [eraseT_used, eraseT_matched]
    by_cases h1 : st.used.contains r.order
    · rw [if_pos h1, if_pos h1, ih]
    · rw [if_neg h1, if_neg h1]
      by_cases h2 : surfaceMatch2 (normalize_surface_name ta.2.parsed.surface)
          (normalize_surface_name r.parsed.surface) &&
          numberMatch2 ta.2.parsed.number r.parsed.number
      · rw [if_pos h2, if_pos h2]
        unfold eraseT
        simp
      · rw [if_neg h2, if_neg h2, ih]

lemma any_map_snd (l : List (Nat × MatchRow)) (nm : PyStr) :
    ((l.map Prod.snd).any (fun m => m.original_name = nm)) =
      l.any (fun m => m.2.original_name = nm) := by
  induction l with
  | nil => rfl
  | cons x l ih => simp only [List.map_cons, List.any_cons, ih]

lemma eraseT_pass2StepT (c : List RefSample) (st : MStateT) (ta : Nat × SampleData) :
    eraseT (pass2StepT c st ta) = pass2Step c (eraseT st) ta.2 := by
  unfold pass2StepT pass2Step
  have hany : ((eraseT st).matched.any
      (fun m => m.original_name = ta.2.original_name)) =
      st.matched.any (fun m => m.2.original_name = ta.2.original_name) := by
    rw [eraseT_matched]
    exact any_map_snd st.matched ta.2.original_name
  by_cases h : st.matched.any (fun m => m.2.original_name = ta.2.original_name)
  · rw [if_pos h]
    rw [hany] at *
    rw [if_pos h]
  · rw [if_neg h]
    rw [hany] at *
    rw [if_neg h]
    exact eraseT_pass2LoopT ta c st

lemma eraseT_fold1 (c : List RefSample) :
    ∀ (l : List (Nat × SampleData)) (st : MStateT),
      eraseT (l.foldl (pass1StepT c) st) =
        (l.map Prod.snd).foldl (pass1Step c) (eraseT st) := by
  intro l
  induction l with
  | nil => intro st; rfl
  | cons ta l' ih =>
    intro st
    simp only [List.foldl_cons, List.map_cons]
    rw [ih, eraseT_pass1StepT]

lemma eraseT_fold2 (c : List RefSample) :
    ∀ (l : List (Nat × SampleData)) (st : MStateT),
      eraseT (l.foldl (pass2StepT c) st) =
        (l.map Prod.snd).foldl (pass2Step c) (eraseT st) := by
  intro l
  induction l with
  | nil => intro st; rfl
  | cons ta l' ih =>
    intro st
    simp only [List.foldl_cons, List.map_cons]
    rw [ih, eraseT_pass2StepT]

lemma map_snd_orderedInsert (x : Nat × MatchRow) :
    ∀ (l : List (Nat × MatchRow)),
      (l.orderedInsert (fun u v => u.2.order ≤ v.2.order) x).map Prod.snd =
        (l.map Prod.snd).orderedInsert (fun u v => u.order ≤ v.order) x.2 := by
  intro l
  induction l with
  | nil => rfl
  | cons y l' ih =>
    unfold List.orderedInsert
    by_cases h : x.2.order ≤ y.2.order
    · rw [if_pos h]
      simp only [List.map_cons]
      rw [if_pos h]
    · rw [if_neg h]
      simp only [List.map_cons]
      rw [if_neg h, ih]

lemma map_snd_insertionSort :
    ∀ (l : List (Nat × MatchRow)),
      (l.insertionSort (fun u v => u.2.order ≤ v.2.order)).map Prod.snd =
        (l.map Prod.snd).insertionSort (fun u v => u.order ≤ v.order) := by
  intro l
  induction l with
  | nil => rfl
  | cons x l' ih =>
    unfold List.insertionSort
    rw [map_snd_orderedInsert, ih]
    rfl

/-- Erasing the tags of `match_samples_tagged` yields exactly
`match_samples_improved`. -/
lemma map_snd_match_samples_tagged (a : List SampleData) (c : List RefSample) :
    (match_samples_tagged a.enum c).map Prod.snd = match_samples_improved a c := by
  unfold match_samples_tagged match_samples_improved
  rw [map_snd_insertionSort]
  have h2 := eraseT_fold2 c a.enum (a.enum.foldl (pass1StepT c) ⟨[], []⟩)
  have h1 := eraseT_fold1 c a.enum ⟨[], []⟩
  have : eraseT (⟨[], []⟩ : MStateT) = (⟨[], []⟩ : MState) := rfl
  rw [this] at h1
  have hmap : a.enum.map Prod.snd = a := List.enum_map_snd a
  rw [hmap] at h1 h2
  rw [h1] at h2
  have : (eraseT (a.enum.foldl (pass2StepT c) (a.enum.foldl (pass1StepT c) ⟨[], []⟩))).matched
      = ((a.enum.foldl (pass2StepT c) (a.enum.foldl (pass1StepT c) ⟨[], []⟩)).matched).map Prod.snd := rfl
  rw [← this, h2]

lemma contains_mem (l : List Nat) (a : Nat) : l.contains a = true ↔ a ∈ l := by
  simp [List.contains]

/-- Loop invariant of `match_samples_improved`: every matched row's order
was inserted in the used set, and matched rows carry pairwise distinct
orders. -/
def UsedInv (st : MState) : Prop :=
  (∀ m ∈ st.matched, m.order ∈ st.used) ∧
  st.matched.Pairwise (fun x y => x.order ≠ y.order)

lemma usedInv_append (st : MState) (row : MatchRow)
    (h : UsedInv st) (hfresh : row.order ∉ st.used) :
    UsedInv ⟨st.matched ++ [row], row.order :: st.used⟩ := by
  obtain ⟨hmem, hpw⟩ := h
  constructor
  · intro m hm
    rcases List.mem_append.mp hm with hm | hm
    · exact List.mem_cons_of_mem _ (hmem m hm)
    · rcases List.mem_singleton.mp hm with rfl
      exact List.mem_cons_self _ _
  · rw [List.pairwise_append]
    refine ⟨hpw, List.pairwise_singleton _ _, ?_⟩
    intro x hx y hy
    rcases List.mem_singleton.mp hy with rfl
    intro hxy
    exact hfresh (hxy ▸ hmem x hx)

lemma usedInv_pass1Step (c : List RefSample) (st : MState) (a : SampleData)
    (h : UsedInv st) : UsedInv (pass1Step c st a) := by
  unfold pass1Step
  cases find_best_match a c with
  | none => exact h
  | some r =>
    dsimp only
    by_cases hc : st.used.contains r.order
    · rw [if_pos hc]; exact h
    · rw [if_neg hc]
      refine usedInv_append st _ h ?_
      intro hmem
      exact hc ((contains_mem _ _).mpr hmem)

lemma usedInv_pass2Loop (a : SampleData) :
    ∀ (refs : List RefSample) (st : MState),
      UsedInv st → UsedInv (pass2Loop a st refs) := by
  intro refs
  induction refs with
  | nil => exact fun st h => h
  | cons r rest ih =>
    intro st h
    unfold pass2Loop
    by_cases h1 : st.used.contains r.order
    · rw [if_pos h1]; exact ih st h
    · rw [if_neg h1]
      by_cases h2 : surfaceMatch2 (normalize_surface_name a.parsed.surface)
          (normalize_surface_name r.parsed.surface) &&
          numberMatch2 a.parsed.number r.parsed.number
      · rw [if_pos h2]
        refine usedInv_append st _ h ?_
        intro hmem
        exact h1 ((contains_mem _ _).mpr hmem)
      · rw [if_neg h2]; exact ih st h

lemma usedInv_pass2Step (c : List RefSample) (st : MState) (a : SampleData)
    (h : UsedInv st) : UsedInv (pass2Step c st a) := by
  unfold pass2Step
  by_cases h1 : st.matched.any (fun m => m.original_name = a.original_name)
  · rw [if_pos h1]; exact h
  · rw [if_neg h1]; exact usedInv_pass2Loop a c st h

lemma usedInv_fold1 (c : List RefSample) :
    ∀ (l : List SampleData) (st : MState),
      UsedInv st → UsedInv (l.foldl (pass1Step c) st) := by
  intro l
  induction l with
  | nil => exact fun st h => h
  | cons a l' ih =>
    intro st h
    exact ih _ (usedInv_pass1Step c st a h)

lemma usedInv_fold2 (c : List RefSample) :
    ∀ (l : List SampleData) (st : MState),
      UsedInv st → UsedInv (l.foldl (pass2Step c) st) := by
  intro l
  induction l with
  | nil => exact fun st h => h
  | cons a l' ih =>
    intro st h
    exact ih _ (usedInv_pass2Step c st a h)

/-- The matched rows of one `match_samples_improved` call carry pairwise
distinct reference orders. -/
lemma match_samples_improved_orders_distinct (a : List SampleData)
    (c : List RefSample) :
    (match_samples_improved a c).Pairwise (fun x y => x.order ≠ y.order) := by
  unfold match_samples_improved
  have hinv : UsedInv ((a.foldl (pass2Step c) (a.foldl (pass1Step c) ⟨[], []⟩))) :=
    usedInv_fold2 c a _ (usedInv_fold1 c a ⟨[], []⟩ ⟨by simp, List.Pairwise.nil⟩)
  have hperm := List.perm_insertionSort
    (fun x y : MatchRow => x.order ≤ y.order)
    (a.foldl (pass2Step c) (a.foldl (pass1Step c) ⟨[], []⟩)).matched
  exact (hperm.pairwise_iff (fun {x y} h => Ne.symm h)).mpr hinv.2

@[simp] lemma mkMatchRow_original_name (a : SampleData) (r : RefSample) (q : MQuality) :
    (mkMatchRow a r q).original_name = a.original_name := rfl

/-- Tag bookkeeping: every matched row's tag identifies the measurement
entry (by position) whose `original_name` it carries. -/
def TagNames (l0 : List (Nat × SampleData)) (st : MStateT) : Prop :=
  ∀ tm ∈ st.matched, ∀ ts ∈ l0, tm.1 = ts.1 →
    tm.2.original_name = ts.2.original_name

lemma pass1StepT_shape (c : List RefSample) (st : MStateT) (ta : Nat × SampleData) :
    (pass1StepT c st ta).matched = st.matched ∨
    ∃ r, (pass1StepT c st ta).matched =
      st.matched ++ [(ta.1, mkMatchRow ta.2 r MQuality.exact)] := by
  unfold pass1StepT
  cases find_best_match ta.2 c with
  | none => exact Or.inl rfl
  | some r =>
    dsimp only
    by_cases hc : st.used.contains r.order
    · rw [if_pos hc]; exact Or.inl rfl
    · rw [if_neg hc]; exact Or.inr ⟨r, rfl⟩

lemma pass2LoopT_shape (ta : Nat × SampleData) :
    ∀ (refs : List RefSample) (st : MStateT),
      (pass2LoopT ta st refs).matched = st.matched ∨
      ∃ r, (pass2LoopT ta st refs).matched =
        st.matched ++ [(ta.1, mkMatchRow ta.2 r MQuality.part)] := by
  intro refs
  induction refs with
  | nil => exact fun st => Or.inl rfl
  | cons r rest ih =>
    intro st
    unfold pass2LoopT
    by_cases h1 : st.used.contains r.order
    · rw [if_pos h1]; exact ih st
    · rw [if_neg h1]
      by_cases h2 : surfaceMatch2 (normalize_surface_name ta.2.parsed.surface)
          (normalize_surface_name r.parsed.surface) &&
          numberMatch2 ta.2.parsed.number r.parsed.number
      · rw [if_pos h2]; exact Or.inr ⟨r, rfl⟩
      · rw [if_neg h2]; exact ih st

lemma tagNames_of_append (l0 : List (Nat × SampleData))
    (hinj : ∀ x ∈ l0, ∀ y ∈ l0, x.1 = y.1 → x = y)
    (matched : List (Nat × MatchRow)) (used : List Nat)
    (ta : Nat × SampleData) (hta : ta ∈ l0) (row : MatchRow)
    (hrow : row.original_name = ta.2.original_name)
    (h : TagNames l0 ⟨matched, used⟩) :
    ∀ used', TagNames l0 ⟨matched ++ [(ta.1, row)], used'⟩ := by
  intro used' tm htm ts hts hfst
  rcases List.mem_append.mp htm with htm | htm
  · exact h tm htm ts hts hfst
  · rcases List.mem_singleton.mp htm with rfl
    dsimp only at hfst ⊢
    have : ta = ts := hinj ta hta ts hts hfst
    rw [hrow, this]

lemma pass1T_fold_tags (c : List RefSample) (l0 : List (Nat × SampleData))
    (hinj : ∀ x ∈ l0, ∀ y ∈ l0, x.1 = y.1 → x = y) :
    ∀ (l : List (Nat × SampleData)) (st : MStateT),
      (∀ ta ∈ l, ta ∈ l0) →
      (l.map Prod.fst).Nodup →
      (∀ t ∈ l.map Prod.fst, t ∉ st.matched.map Prod.fst) →
      (st.matched.map Prod.fst).Nodup →
      TagNames l0 st →
      ((l.foldl (pass1StepT c) st).matched.map Prod.fst).Nodup ∧
        TagNames l0 (l.foldl (pass1StepT c) st) := by
  intro l
  induction l with
  | nil => intro st _ _ _ hnd htn; exact ⟨hnd, htn⟩
  | cons ta l' ih =>
    intro st hsub hlnd hfresh hnd htn
    simp only [List.foldl_cons]
    have hta0 : ta ∈ l0 := hsub ta (List.mem_cons_self _ _)
    have hlnd' : (l'.map Prod.fst).Nodup := by
      simp only [List.map_cons, List.nodup_cons] at hlnd
      exact hlnd.2
    have htaNotl' : ta.1 ∉ l'.map Prod.fst := by
      simp only [List.map_cons, List.nodup_cons] at hlnd
      exact hlnd.1
    rcases pass1StepT_shape c st ta with hsh | ⟨r, hsh⟩
    · apply ih (pass1StepT c st ta)
      · intro x hx; exact hsub x (List.mem_cons_of_mem _ hx)
      · exact hlnd'
      · intro t ht; rw [hsh]
        exact hfresh t (by simp only [List.map_cons]; exact List.mem_cons_of_mem _ ht)
      · rw [hsh]; exact hnd
      · intro tm htm ts hts hfst
        rw [hsh] at htm
        exact htn tm htm ts hts hfst
    · have hfreshta : ta.1 ∉ st.matched.map Prod.fst :=
        hfresh ta.1 (by simp only [List.map_cons]; exact List.mem_cons_self _ _)
      apply ih (pass1StepT c st ta)
      · intro x hx; exact hsub x (List.mem_cons_of_mem _ hx)
      · exact hlnd'
      · intro t ht
        rw [hsh]
        simp only [List.map_append, List.map_cons, List.map_nil, List.mem_append,
          List.mem_singleton]
        rintro (hmem | rfl)
        · exact hfresh t (by simp only [List.map_cons]; exact List.mem_cons_of_mem _ ht) hmem
        · exact htaNotl' ht
      · rw [hsh]
        simp only [List.map_append, List.map_cons, List.map_nil]
        rw [List.nodup_append]
        exact ⟨hnd, List.nodup_singleton _, by
          intro t ht1 ht2
          rcases List.mem_singleton.mp ht2 with rfl
          exact hfreshta ht1⟩
      · intro tm htm ts hts hfst
        rw [hsh] at htm
        exact tagNames_of_append l0 hinj st.matched st.used ta hta0
          (mkMatchRow ta.2 r MQuality.exact) rfl htn [] tm htm ts hts hfst

lemma pass2T_step_tags (c : List RefSample) (l0 : List (Nat × SampleData))
    (hinj : ∀ x ∈ l0, ∀ y ∈ l0, x.1 = y.1 → x = y)
    (st : MStateT) (ta : Nat × SampleData) (hta : ta ∈ l0)
    (hnd : (st.matched.map Prod.fst).Nodup) (htn : TagNames l0 st) :
    ((pass2StepT c st ta).matched.map Prod.fst).Nodup ∧
      TagNames l0 (pass2StepT c st ta) := by
  unfold pass2StepT
  by_cases hany : st.matched.any (fun m => m.2.original_name = ta.2.original_name)
  · rw [if_pos hany]; exact ⟨hnd, htn⟩
  · rw [if_neg hany]
    have hnone : ∀ tm ∈ st.matched, tm.2.original_name ≠ ta.2.original_name := by
      intro tm htm heq
      apply hany
      rw [List.any_eq_true]
      exact ⟨tm, htm, by simp [heq]⟩
    have hfreshta : ta.1 ∉ st.matched.map Prod.fst := by
      intro hmem
      rw [List.mem_map] at hmem
      obtain ⟨tm, htm, hfst⟩ := hmem
      exact hnone tm htm (htn tm htm ta hta hfst)
    rcases pass2LoopT_shape ta c st with hsh | ⟨r, hsh⟩
    · constructor
      · rw [hsh]; exact hnd
      · intro tm htm ts hts hfst
        rw [hsh] at htm
        exact htn tm htm ts hts hfst
    · constructor
      · rw [hsh]
        simp only [List.map_append, List.map_cons, List.map_nil]
        rw [List.nodup_append]
        exact ⟨hnd, List.nodup_singleton _, by
          intro t ht1 ht2
          rcases List.mem_singleton.mp ht2 with rfl
          exact hfreshta ht1⟩
      · intro tm htm ts hts hfst
        rw [hsh] at htm
        exact tagNames_of_append l0 hinj st.matched st.used ta hta
          (mkMatchRow ta.2 r MQuality.part) rfl htn [] tm htm ts hts hfst

lemma pass2T_fold_tags (c : List RefSample) (l0 : List (Nat × SampleData))
    (hinj : ∀ x ∈ l0, ∀ y ∈ l0, x.1 = y.1 → x = y) :
    ∀ (l : List (Nat × SampleData)) (st : MStateT),
      (∀ ta ∈ l, ta ∈ l0) →
      (st.matched.map Prod.fst).Nodup →
      TagNames l0 st →
      ((l.foldl (pass2StepT c) st).matched.map Prod.fst).Nodup ∧
        TagNames l0 (l.foldl (pass2StepT c) st) := by
  intro l
  induction l with
  | nil => intro st _ hnd htn; exact ⟨hnd, htn⟩
  | cons ta l' ih =>
    intro st hsub hnd htn
    simp only [List.foldl_cons]
    obtain ⟨hnd', htn'⟩ := pass2T_step_tags c l0 hinj st ta
      (hsub ta (List.mem_cons_self _ _)) hnd htn
    exact ih _ (fun x hx => hsub x (List.mem_cons_of_mem _ hx)) hnd' htn'

/-- The tags of one tagged matching call are pairwise distinct: no
measurement entry produces more than one match row. -/
lemma match_samples_tagged_tags_nodup (a : List SampleData) (c : List RefSample) :
    ((match_samples_tagged a.enum c).map Prod.fst).Nodup := by
  unfold match_samples_tagged
  have henum : (a.enum.map Prod.fst).Nodup := by
    rw [List.enum_map_fst]
    exact List.nodup_range _
  have hinj : ∀ x ∈ a.enum, ∀ y ∈ a.enum, x.1 = y.1 → x = y := by
    intro x hx y hy hfst
    exact List.inj_on_of_nodup_map henum hx hy hfst
  obtain ⟨hnd1, htn1⟩ := pass1T_fold_tags c a.enum hinj a.enum ⟨[], []⟩
    (fun ta h => h) henum (by simp) (by simp) (by intro tm htm; simp at htm)
  obtain ⟨hnd2, _⟩ := pass2T_fold_tags c a.enum hinj a.enum
    (a.enum.foldl (pass1StepT c) ⟨[], []⟩) (fun ta h => h) hnd1 htn1
  have hperm := List.perm_insertionSort
    (fun x y : Nat × MatchRow => x.2.order ≤ y.2.order)
    (a.enum.foldl (pass2StepT c) (a.enum.foldl (pass1StepT c) ⟨[], []⟩)).matched
  exact ((hperm.map Prod.fst).nodup_iff).mpr hnd2

/-- C1, counterexample: `main` re-creates the used set for every category
(line 484 calls `match_samples_improved` per steel grade with a fresh
`used_correct_indices`), so one run with two categories can bind the same
reference entry (rank 1) twice. -/
theorem run_injectivity_counterexample :
    (runMatch [(strToPy "г1", [exSample]), (strToPy "г2", [exSample])]
        [exRef]).map (fun m => m.order) = [1, 1] ∧
    ¬ ((runMatch [(strToPy "г1", [exSample]), (strToPy "г2", [exSample])]
        [exRef]).Pairwise (fun x y => x.order ≠ y.order)) := by
  decide

/-- C1 (amended): within one `match_samples_improved` call (one category),
no two match rows share the same reference rank, and no measurement entry
produces more than one match row (the tagged copy of the computation, which
erases to the original one, yields pairwise distinct entry tags).  Across
the categories of one run the used set is rebuilt per category, so the same
reference entry may be bound in several categories. -/
theorem run_injectivity (a : List SampleData) (c : List RefSample) :
    (match_samples_improved a c).Pairwise (fun x y => x.order ≠ y.order) ∧
    (match_samples_tagged a.enum c).map Prod.snd = match_samples_improved a c ∧
    ((match_samples_tagged a.enum c).map Prod.fst).Nodup :=
  ⟨match_samples_improved_orders_distinct a c,
   map_snd_match_samples_tagged a c,
   match_samples_tagged_tags_nodup a c⟩

/-- Output rows of a category table as built by `main` (`app.py` lines
493-496): display number `i+1`, canonical name, measurements. -/
def buildTableRows (matched : List MatchRow) : List (Nat × PyStr × List PyStr) :=
  matched.enum.map (fun im => (im.1 + 1, im.2.correct_name, im.2.measurements))

lemma buildTableRows_numbers (l : List MatchRow) :
    (buildTableRows l).map (fun row => row.1) = List.range' 1 l.length := by
  unfold buildTableRows
  rw [List.map_map]
  have h1 : ((fun (row : Nat × PyStr × List PyStr) => row.1) ∘
      (fun im : Nat × MatchRow => (im.1 + 1, im.2.correct_name, im.2.measurements))) =
      ((fun n => n + 1) ∘ Prod.fst) := rfl
  rw [h1, ← List.map_map, List.enum_map_fst, List.range'_eq_map_range]
  apply List.map_congr_left
  intro x _
  omega

/-- C9: the matched rows of one category call are sorted strictly
increasing in reference rank, the display numbers of the built table are
exactly 1..N in that order, and the sort only permutes the rows produced by
the two passes, preserving each row's `order` attribute. -/
theorem sequencer_ordering (a : List SampleData) (c : List RefSample) :
    (match_samples_improved a c).Pairwise (fun x y => x.order < y.order) ∧
    (buildTableRows (match_samples_improved a c)).map (fun row => row.1) =
      List.range' 1 (match_samples_improved a c).length ∧
    (match_samples_improved a c).Perm
      ((a.foldl (pass2Step c) (a.foldl (pass1Step c) ⟨[], []⟩)).matched) := by
  haveI : IsTotal MatchRow (fun x y => x.order ≤ y.order) :=
    ⟨fun x y => Nat.le_total x.order y.order⟩
  haveI : IsTrans MatchRow (fun x y => x.order ≤ y.order) :=
    ⟨fun x y z h1 h2 => le_trans h1 h2⟩
  have hle : (match_samples_improved a c).Pairwise (fun x y => x.order ≤ y.order) :=
    List.sorted_insertionSort (fun x y : MatchRow => x.order ≤ y.order)
      ((a.foldl (pass2Step c) (a.foldl (pass1Step c) ⟨[], []⟩)).matched)
  have hne := match_samples_improved_orders_distinct a c
  refine ⟨?_, buildTableRows_numbers _, ?_⟩
  · exact (hle.and hne).imp (fun h => lt_of_le_of_ne h.1 h.2)
  · exact List.perm_insertionSort (fun x y : MatchRow => x.order ≤ y.order) _

/-- Modelled from the spec (§4.3, §6): the unmatched-measurements side
list, derived as the complement of the matched tags; `main` outputs only
aggregate counts, not such a list. -/
def unmatchedTags (a : List SampleData) (c : List RefSample) : List Nat :=
  (a.enum.map Prod.fst).filter
    (fun t => !((match_samples_tagged a.enum c).map Prod.fst).contains t)

/-- Modelled from the spec (§4.3, §6): the unmatched-references side list,
derived as the complement of the consumed ranks; `main` outputs only
aggregate counts, not such a list. -/
def unmatchedRefs (a : List SampleData) (c : List RefSample) : List RefSample :=
  c.filter
    (fun r => !((match_samples_improved a c).map (fun m => m.order)).contains r.order)

/-- C4 (amended): per category, every measurement entry (identified by its
tag) is matched at most once and lies in exactly one of the matched tags or
the derived unmatched-measurements complement; every reference entry is the
target of at most one match row and lies in exactly one of the consumed
ranks or the derived unmatched-references complement.  The run itself
outputs only aggregate counts, and across categories one reference entry
may be the target of several match rows. -/
theorem completeness_partition (a : List SampleData) (c : List RefSample) :
    (∀ t ∈ a.enum.map Prod.fst,
      (t ∈ (match_samples_tagged a.enum c).map Prod.fst ∧ t ∉ unmatchedTags a c)
      ∨ (t ∉ (match_samples_tagged a.enum c).map Prod.fst ∧ t ∈ unmatchedTags a c)) ∧
    (∀ k : Nat, ((match_samples_tagged a.enum c).map Prod.fst).count k ≤ 1) ∧
    (∀ k : Nat, ((match_samples_improved a c).map (fun m => m.order)).count k ≤ 1) ∧
    (∀ r ∈ c,
      (r.order ∈ (match_samples_improved a c).map (fun m => m.order) ∧
        r ∉ unmatchedRefs a c)
      ∨ (r.order ∉ (match_samples_improved a c).map (fun m => m.order) ∧
        r ∈ unmatchedRefs a c)) := by
  refine ⟨?_, ?_, ?_, ?_⟩
  · intro t ht
    by_cases hm : t ∈ (match_samples_tagged a.enum c).map Prod.fst
    · left
      refine ⟨hm, ?_⟩
      intro hu
      rw [unmatchedTags, List.mem_filter] at hu
      rw [Bool.not_eq_true', ← Bool.not_eq_true] at hu
      exact hu.2 ((contains_mem _ _).mpr hm)
    · right
      refine ⟨hm, ?_⟩
      rw [unmatchedTags, List.mem_filter]
      refine ⟨ht, ?_⟩
      rw [Bool.not_eq_true']
      cases hcb : ((match_samples_tagged a.enum c).map Prod.fst).contains t with
      | false => rfl
      | true => exact absurd ((contains_mem _ _).mp hcb) hm
  · intro k
    exact List.nodup_iff_count_le_one.mp (match_samples_tagged_tags_nodup a c) k
  · intro k
    have hnd : ((match_samples_improved a c).map (fun m => m.order)).Nodup :=
      (match_samples_improved_orders_distinct a c).map _ (fun x y h => h)
    exact List.nodup_iff_count_le_one.mp hnd k
  · intro r hr
    by_cases hm : r.order ∈ (match_samples_improved a c).map (fun m => m.order)
    · left
      refine ⟨hm, ?_⟩
      intro hu
      rw [unmatchedRefs, List.mem_filter] at hu
      rw [Bool.not_eq_true'] at hu
      have := (contains_mem _ _).mpr hm
      rw [hu.2] at this
      cases this
    · right
      refine ⟨hm, ?_⟩
      rw [unmatchedRefs, List.mem_filter]
      refine ⟨hr, ?_⟩
      rw [Bool.not_eq_true']
      by_cases hc : ((match_samples_improved a c).map (fun m => m.order)).contains r.order
      · exact absurd ((contains_mem _ _).mp hc) hm
      · rwa [Bool.not_eq_true] at hc

/-- A second measurement entry for the partition counterexample. -/
def cexSampleB : SampleData :=
  { original_name := strToPy "шпп 4"
    measurements := []
    parsed := { surface := strToPy "шпп", number := some (strToPy "4"),
                letter := none, original := strToPy "шпп 4",
                type := PType.analysis } }

/-- A second reference entry for the partition counterexample. -/
def cexRefB : RefSample :=
  { order := 7
    correct_name := strToPy "ШПП 4"
    parsed := { surface := strToPy "шпп", number := some (strToPy "4"),
                letter := none, original := strToPy "ШПП 4",
                type := PType.analysis } }

/-- C4, counterexample: in a run with two categories each containing a copy
of the same measurement identifier, the single reference entry of rank 7 is
the target of two MatchResults — not "exactly one" — because the used set
is per category; and no unmatched-references list exists in the output to
absorb it. -/
theorem completeness_partition_counterexample :
    ((runMatch [(strToPy "сталь1", [cexSampleB]), (strToPy "сталь2", [cexSampleB])]
        [cexRefB]).map (fun m => m.order)).count 7 = 2 := by
  decide

/-- C3 (amended): Pass 1 computes the score of each measurement entry
against EVERY reference entry (used ones included, `app.py` line 280 passes
the whole list), takes the first entry attaining the maximum in list order
(strict `>` update, so ties go to the earlier list position, not to the
lowest rank), accepts it only when that maximum is at least 50, and then
assigns it only if its rank is not yet used — otherwise the entry gets
nothing in Pass 1 even when an unused entry with an acceptable score
exists. -/
theorem pass1_rule (a : SampleData) (c : List RefSample) :
    (∀ r, find_best_match a c = some r →
      ∃ l1 l2, c = l1 ++ r :: l2
        ∧ 50 ≤ matchScore a.parsed r.parsed
        ∧ (∀ x ∈ l1, matchScore a.parsed x.parsed < matchScore a.parsed r.parsed)
        ∧ (∀ x ∈ c, matchScore a.parsed x.parsed ≤ matchScore a.parsed r.parsed)) ∧
    (find_best_match a c = none → ∀ x ∈ c, matchScore a.parsed x.parsed < 50) ∧
    (∀ (st : MState) r, find_best_match a c = some r →
      st.used.contains r.order = true → pass1Step c st a = st) ∧
    (∀ (st : MState) r, find_best_match a c = some r →
      st.used.contains r.order = false →
      pass1Step c st a =
        ⟨st.matched ++ [mkMatchRow a r MQuality.exact], r.order :: st.used⟩) := by
  refine ⟨?_, ?_, ?_, ?_⟩
  · intro r h
    exact find_best_match_some h
  · exact find_best_match_none
  · intro st r h hc
    unfold pass1Step
    rw [h]
    dsimp only
    rw [if_pos hc]
  · intro st r h hc
    unfold pass1Step
    rw [h]
    dsimp only
    rw [if_neg (by rw [hc]; exact Bool.false_ne_true)]

/-- C3, witness: the Pass-1 rule instantiated on one concrete entry and a
one-entry reference list. -/
theorem pass1_rule_witness :
    50 ≤ matchScore exSample.parsed exRef.parsed ∧
    pass1Step [exRef] ⟨[], []⟩ exSample =
      ⟨[mkMatchRow exSample exRef MQuality.exact], [exRef.order]⟩ := by
  constructor
  · obtain ⟨l1, l2, _, h50, _, _⟩ := (pass1_rule exSample [exRef]).1 exRef (by decide)
    exact h50
  · exact (pass1_rule exSample [exRef]).2.2.2 ⟨[], []⟩ exRef (by decide) (by decide)

/-- Measurement entries and reference entries exhibiting the Pass-1
deviation: the second entry's best overall reference is already used while
an unused reference scoring 100 remains. -/
def cexM1 : SampleData :=
  { original_name := strToPy "м1"
    measurements := [strToPy "0,1"]
    parsed := { surface := strToPy "эпк", number := some (strToPy "2"),
                letter := some (strToPy "А"), original := strToPy "эпк",
                type := PType.structured } }

def cexM2 : SampleData :=
  { original_name := strToPy "м2"
    measurements := [strToPy "0,2"]
    parsed := { surface := strToPy "эпк", number := some (strToPy "2"),
                letter := none, original := strToPy "эпк",
                type := PType.structured } }

def cexR1 : RefSample :=
  { order := 1
    correct_name := strToPy "ЭПК(2,А)"
    parsed := { surface := strToPy "эпк", number := some (strToPy "2"),
                letter := some (strToPy "А"), original := strToPy "ЭПК(2,А)",
                type := PType.structured } }

def cexR2 : RefSample :=
  { order := 2
    correct_name := strToPy "ЭПК(3,Б)"
    parsed := { surface := strToPy "эпк", number := some (strToPy "3"),
                letter := none, original := strToPy "ЭПК(3,Б)",
                type := PType.structured } }

/-- C3, counterexample: after Pass 1 assigns the first entry to rank 1, the
second entry's maximum over the not-yet-used references is 100 ≥ 50 (rank 2
scores 100), so the claim says it must be assigned in Pass 1; the code
computes its best over ALL references, lands on the already-used rank 1,
and assigns nothing — the run ends with only the first entry matched. -/
theorem pass1_rule_counterexample :
    matchScore cexM2.parsed cexR2.parsed = 100 ∧
    (List.foldl (pass1Step [cexR1, cexR2]) ⟨[], []⟩ [cexM1, cexM2]).used = [1] ∧
    ((List.foldl (pass1Step [cexR1, cexR2]) ⟨[], []⟩ [cexM1, cexM2]).matched.map
      (fun m => m.original_name)) = [strToPy "м1"] ∧
    (match_samples_improved [cexM1, cexM2] [cexR1, cexR2]).map
      (fun m => m.original_name) = [strToPy "м1"] := by
  decide

/-- C8, witness: a concrete data row with an identifier and no values is
kept with an empty measurement list. -/
theorem malformed_rows_witness :
    rowParse (pyStrip (strToPy "5  проба")) =
      some { original_name := strToPy "проба", measurements := [],
             parsed := parse_structured_name (strToPy "проба") } :=
  (malformed_rows ⟨[], some (strToPy "Ст20"), []⟩ (strToPy "5  проба")
    (by decide) (by decide) (by decide)).2.2
    (strToPy "5") (strToPy "проба") (by decide) (by decide)

/-- C4, witness: the partition at one concrete run and concrete entries. -/
theorem completeness_partition_witness :
    ((0 ∈ (match_samples_tagged [exSample].enum [exRef]).map Prod.fst ∧
        0 ∉ unmatchedTags [exSample] [exRef]) ∨
      (0 ∉ (match_samples_tagged [exSample].enum [exRef]).map Prod.fst ∧
        0 ∈ unmatchedTags [exSample] [exRef])) ∧
    ((exRef.order ∈ (match_samples_improved [exSample] [exRef]).map (fun m => m.order) ∧
        exRef ∉ unmatchedRefs [exSample] [exRef]) ∨
      (exRef.order ∉ (match_samples_improved [exSample] [exRef]).map (fun m => m.order) ∧
        exRef ∈ unmatchedRefs [exSample] [exRef])) :=
  ⟨(completeness_partition [exSample] [exRef]).1 0 (by decide),
   (completeness_partition [exSample] [exRef]).2.2.2 exRef (by decide)⟩

/-! Block decomposition of `parse_chemical_tables_improved` for the
duplicate-heading claim. -/

/-- The data rows a label-free block of lines contributes, in order. -/
def rowsOfBlock (lines : List PyStr) : List SampleData :=
  lines.filterMap
    (fun l => if isBoilerplate (pyStrip l) then none else rowParse (pyStrip l))

lemma tableStep_nonlabel (T : List (PyStr × List SampleData)) (g : PyStr)
    (cur : List SampleData) (l : PyStr)
    (hs : steelSearch (pyStrip l) = none) (hgt : g ≠ []) :
    tableStep ⟨T, some g, cur⟩ l =
      ⟨T, some g, cur ++
        (if isBoilerplate (pyStrip l) then none else rowParse (pyStrip l)).toList⟩ := by
  unfold tableStep
  simp only [hs]
  have hgtruthy : truthyGrade (some g) = true := by
    simp [truthyGrade, List.isEmpty_iff, hgt]
  by_cases hb : isBoilerplate (pyStrip l)
  · simp [hb]
  · cases hr : rowParse (pyStrip l) with
    | none => simp [hb, hr, hgtruthy]
    | some sd => simp [hb, hr, hgtruthy]

lemma tableFold_nonlabel (g : PyStr) (hgt : g ≠ []) :
    ∀ (b : List PyStr) (T : List (PyStr × List SampleData)) (cur : List SampleData),
      (∀ l ∈ b, steelSearch (pyStrip l) = none) →
      b.foldl tableStep ⟨T, some g, cur⟩ = ⟨T, some g, cur ++ rowsOfBlock b⟩ := by
  intro b
  induction b with
  | nil => intro T cur _; simp [rowsOfBlock]
  | cons l b' ih =>
    intro T cur hfree
    simp only [List.foldl_cons]
    rw [tableStep_nonlabel T g cur l (hfree l (List.mem_cons_self _ _)) hgt]
    rw [ih T _ (fun x hx => hfree x (List.mem_cons_of_mem _ hx))]
    simp [rowsOfBlock, List.filterMap_cons]
    cases hb : isBoilerplate (pyStrip l) with
    | true => simp
    | false =>
      cases hr : rowParse (pyStrip l) with
      | none => simp
      | some sd => simp

lemma tableStep_label (st : TState) (l : PyStr) (graw : PyStr)
    (hs : steelSearch (pyStrip l) = some graw) :
    tableStep st l =
      ⟨if truthyGrade st.grade ∧ st.cur ≠ [] then
          dictSet st.tables (st.grade.getD []) st.cur
        else st.tables,
       some (pyStrip graw), []⟩ := by
  unfold tableStep
  simp only [hs]

lemma dictGet_dictSet (d : List (PyStr × List SampleData)) (k : PyStr)
    (v : List SampleData) : dictGet (dictSet d k v) k = some v := by
  unfold dictSet
  by_cases h : d.any (fun kv => kv.1 = k)
  · rw [if_pos h]
    unfold dictGet
    induction d with
    | nil => simp at h
    | cons kv d' ih =>
      simp only [List.any_cons, Bool.or_eq_true] at h
      by_cases hk : kv.1 = k
      · simp only [List.map_cons, if_pos hk]
        rw [List.find?_cons_of_pos _ (by simp)]
        rfl
      · simp only [List.map_cons, if_neg hk]
        rw [List.find?_cons_of_neg _ (by simp [hk])]
        apply ih
        rcases h with h | h
        · exact absurd (by simpa using h) hk
        · exact h
  · rw [if_neg h]
    unfold dictGet
    induction d with
    | nil => simp [List.find?]
    | cons kv d' ih =>
      simp only [List.any_cons, Bool.or_eq_true, not_or] at h
      rw [List.cons_append, List.find?_cons_of_neg _ (by simpa using h.1)]
      exact ih (by simpa using h.2)

/-- C10: when the same steel-grade heading introduces two blocks and the
second (last) block has data rows, the parsed tables map holds exactly the
rows of the last block under that grade; every row of the earlier block
under the same label is overwritten away. -/
theorem duplicate_category_last_block
    (content : PyStr) (pre b1 b2 : List PyStr) (lab graw g : PyStr)
    (hne : content ≠ [])
    (hsplit : splitLines content = pre ++ lab :: (b1 ++ lab :: b2))
    (hlab : steelSearch (pyStrip lab) = some graw)
    (hg : pyStrip graw = g)
    (hgt : g ≠ [])
    (hfree : ∀ l ∈ b1 ++ b2, steelSearch (pyStrip l) = none)
    (hrows : rowsOfBlock b2 ≠ []) :
    dictGet (parse_chemical_tables_improved content) g = some (rowsOfBlock b2) := by
  unfold parse_chemical_tables_improved
  rw [if_neg hne, hsplit]
  rw [List.foldl_append, List.foldl_cons, List.foldl_append, List.foldl_cons]
  rw [tableStep_label (List.foldl tableStep ⟨[], none, []⟩ pre) _ _ hlab, hg]
  rw [tableFold_nonlabel g hgt b1 _ []
    (fun l hl => hfree l (List.mem_append_left _ hl))]
  rw [tableStep_label _ _ _ hlab, hg]
  rw [tableFold_nonlabel g hgt b2 _ []
    (fun l hl => hfree l (List.mem_append_right _ hl))]
  have hgtruthy : truthyGrade (some g) = true := by
    simp [truthyGrade, List.isEmpty_iff, hgt]
  simp only [List.nil_append, Option.getD_some]
  rw [if_pos (by exact ⟨hgtruthy, hrows⟩)]
  exact dictGet_dictSet _ _ _

/-- C10, witness: a concrete measurement text in which the grade `Х`
introduces two blocks; the parsed map holds only the last block's row. -/
theorem duplicate_category_last_block_witness :
    dictGet (parse_chemical_tables_improved
        (strToPy "Марка стали: Х\n1  а\nМарка стали: Х\n2  б")) (strToPy "Х") =
      some (rowsOfBlock [strToPy "2  б"]) :=
  duplicate_category_last_block
    (strToPy "Марка стали: Х\n1  а\nМарка стали: Х\n2  б")
    [] [strToPy "1  а"] [strToPy "2  б"] (strToPy "Марка стали: Х")
    (strToPy "Х") (strToPy "Х")
    (by decide) (by decide) (by decide) (by decide) (by decide)
    (by intro l hl; fin_cases hl <;> decide) (by decide)

/-! Idempotence of `normalize_surface_name`: character-level lemmas. -/

lemma isWsN_iff (c : Nat) :
    isWsN c = true ↔ (c = 32 ∨ c = 9 ∨ c = 10 ∨ c = 13 ∨ c = 11 ∨ c = 12) := by
  simp only [isWsN, Bool.or_eq_true, decide_eq_true_eq]
  tauto

lemma pyLowerN_idem (c : Nat) : pyLowerN (pyLowerN c) = pyLowerN c := by
  unfold pyLowerN
  split_ifs <;> omega

lemma pyLowerN_pyUpperN_of_lower {c : Nat} (h : pyLowerN c = c) :
    pyLowerN (pyUpperN c) = c := by
  unfold pyLowerN at h ⊢
  unfold pyUpperN
  split_ifs at h ⊢ <;> omega

lemma isWsN_pyLowerN (c : Nat) : isWsN (pyLowerN c) = isWsN c := by
  unfold pyLowerN
  split_ifs with h1 h2 h3
  · rw [Bool.eq_iff_iff, isWsN_iff, isWsN_iff]; omega
  · rw [Bool.eq_iff_iff, isWsN_iff, isWsN_iff]; omega
  · rw [Bool.eq_iff_iff, isWsN_iff, isWsN_iff]; omega
  · rfl

lemma isWsN_pyUpperN (c : Nat) : isWsN (pyUpperN c) = isWsN c := by
  unfold pyUpperN
  split_ifs with h1 h2 h3
  · rw [Bool.eq_iff_iff, isWsN_iff, isWsN_iff]; omega
  · rw [Bool.eq_iff_iff, isWsN_iff, isWsN_iff]; omega
  · rw [Bool.eq_iff_iff, isWsN_iff, isWsN_iff]; omega
  · rfl

/-! Idempotence of `normalize_surface_name`: list-level lemmas. -/

lemma collapseWsAux_subset :
    ∀ (b : Bool) (m : PyStr) (c : Nat), c ∈ collapseWsAux b m → c = 32 ∨ c ∈ m := by
  intro b m
  induction m generalizing b with
  | nil => intro c hc; cases hc
  | cons d rest ih =>
    intro c hc
    unfold collapseWsAux at hc
    by_cases hd : isWsN d
    · rw [if_pos hd] at hc
      cases b with
      | true =>
        rcases ih true c hc with h | h
        · exact Or.inl h
        · exact Or.inr (List.mem_cons_of_mem _ h)
      | false =>
        rcases List.mem_cons.mp hc with h | h
        · exact Or.inl h
        · rcases ih true c h with h | h
          · exact Or.inl h
          · exact Or.inr (List.mem_cons_of_mem _ h)
    · rw [if_neg hd] at hc
      rcases List.mem_cons.mp hc with h | h
      · exact Or.inr (h ▸ List.mem_cons_self _ _)
      · rcases ih false c h with h | h
        · exact Or.inl h
        · exact Or.inr (List.mem_cons_of_mem _ h)

/-- Every character of the normalized text is lowercase-fixed. -/
lemma allLower_pre (s : PyStr) :
    ∀ c ∈ collapseWs (pyLowerStr s), pyLowerN c = c := by
  intro c hc
  rcases collapseWsAux_subset false (pyLowerStr s) c hc with h | h
  · subst h; rfl
  · rcases List.mem_map.mp h with ⟨d, _, rfl⟩
    exact pyLowerN_idem d

lemma collapseWsAux_head_nonws :
    ∀ (m : PyStr) (c : Nat), (collapseWsAux true m).head? = some c →
      isWsN c = false := by
  intro m
  induction m with
  | nil => intro c hc; cases hc
  | cons d rest ih =>
    intro c hc
    unfold collapseWsAux at hc
    by_cases hd : isWsN d
    · rw [if_pos hd] at hc
      exact ih c hc
    · rw [if_neg hd] at hc
      cases hc
      rwa [← Bool.not_eq_true]

lemma collapseWsAux_flagIrrel (l : PyStr)
    (h : ∀ c, l.head? = some c → isWsN c = false) :
    collapseWsAux true l = collapseWsAux false l := by
  cases l with
  | nil => rfl
  | cons c rest =>
    have hc : isWsN c = false := h c rfl
    unfold collapseWsAux
    rw [if_neg (by rw [hc]; exact Bool.false_ne_true),
        if_neg (by rw [hc]; exact Bool.false_ne_true)]

lemma collapseWsAux_cons (b : Bool) (c : Nat) (rest : PyStr) :
    collapseWsAux b (c :: rest) =
      if isWsN c then
        (if b then collapseWsAux true rest else 32 :: collapseWsAux true rest)
      else c :: collapseWsAux false rest := rfl

lemma collapse_idem_aux :
    ∀ (m : PyStr) (b : Bool),
      collapseWsAux false (collapseWsAux b m) = collapseWsAux b m := by
  intro m
  induction m with
  | nil => intro b; rfl
  | cons d rest ih =>
    intro b
    rw [collapseWsAux_cons b d rest]
    by_cases hd : isWsN d
    · rw [if_pos hd]
      cases b with
      | true =>
        rw [if_pos rfl]
        exact ih true
      | false =>
        rw [if_neg Bool.false_ne_true]
        rw [collapseWsAux_cons false 32 (collapseWsAux true rest)]
        rw [if_pos (by decide : isWsN 32 = true), if_neg Bool.false_ne_true]
        rw [collapseWsAux_flagIrrel _ (collapseWsAux_head_nonws rest), ih true]
    · rw [if_neg hd]
      rw [collapseWsAux_cons false d (collapseWsAux false rest), if_neg hd, ih false]

lemma titleAux_lower :
    ∀ (m : PyStr) (b : Bool), (∀ c ∈ m, pyLowerN c = c) →
      pyLowerStr (pyTitleAux b m) = m := by
  intro m
  induction m with
  | nil => intro b _; rfl
  | cons c rest ih =>
    intro b hall
    have hc := hall c (List.mem_cons_self _ _)
    show pyLowerN (if isCasedN c then (if b then pyLowerN c else pyUpperN c) else c)
        :: pyLowerStr (pyTitleAux (isCasedN c) rest) = c :: rest
    rw [ih (isCasedN c) (fun d hd => hall d (List.mem_cons_of_mem _ hd))]
    by_cases hcase : isCasedN c
    · rw [if_pos hcase]
      cases b with
      | true =>
        rw [if_pos rfl, pyLowerN_idem, hc]
      | false =>
        rw [if_neg Bool.false_ne_true, pyLowerN_pyUpperN_of_lower hc]
    · rw [if_neg hcase, hc]

lemma titleAux_ws_mask :
    ∀ (m : PyStr) (b : Bool), (pyTitleAux b m).map isWsN = m.map isWsN := by
  intro m
  induction m with
  | nil => intro b; rfl
  | cons c rest ih =>
    intro b
    show isWsN (if isCasedN c then (if b then pyLowerN c else pyUpperN c) else c)
        :: (pyTitleAux (isCasedN c) rest).map isWsN = isWsN c :: rest.map isWsN
    rw [ih (isCasedN c)]
    by_cases hcase : isCasedN c
    · rw [if_pos hcase]
      cases b with
      | true => rw [if_pos rfl, isWsN_pyLowerN]
      | false => rw [if_neg Bool.false_ne_true, isWsN_pyUpperN]
    · rw [if_neg hcase]

lemma head?_dropWhile_nonws :
    ∀ (l : PyStr) (c : Nat), (l.dropWhile isWsN).head? = some c → isWsN c = false := by
  intro l
  induction l with
  | nil => intro c hc; cases hc
  | cons d rest ih =>
    intro c hc
    rw [List.dropWhile_cons] at hc
    by_cases hd : isWsN d
    · rw [if_pos hd] at hc; exact ih c hc
    · rw [if_neg hd] at hc
      cases hc
      rwa [← Bool.not_eq_true]

lemma strip_head_nonws (s : PyStr) :
    ∀ c, (pyStrip s).head? = some c → isWsN c = false := by
  intro c hc
  unfold pyStrip at hc
  obtain ⟨p, hp⟩ := List.dropWhile_suffix (l := (s.dropWhile isWsN).reverse) isWsN
  have hteq : s.dropWhile isWsN =
      ((s.dropWhile isWsN).reverse.dropWhile isWsN).reverse ++ p.reverse := by
    conv_lhs => rw [← List.reverse_reverse (s.dropWhile isWsN), ← hp]
    rw [List.reverse_append]
  apply head?_dropWhile_nonws s c
  rw [hteq]
  cases hur : ((s.dropWhile isWsN).reverse.dropWhile isWsN).reverse with
  | nil => rw [hur] at hc; cases hc
  | cons c0 r =>
    rw [hur] at hc
    rw [List.cons_append]
    exact hc

lemma strip_last_nonws (s : PyStr) :
    ∀ c, (pyStrip s).getLast? = some c → isWsN c = false := by
  intro c hc
  unfold pyStrip at hc
  rw [List.getLast?_reverse] at hc
  exact head?_dropWhile_nonws _ c hc

lemma getLast?_cons_of_ne_nil (a : Nat) (l : PyStr) (h : l ≠ []) :
    (a :: l).getLast? = l.getLast? := by
  cases l with
  | nil => exact absurd rfl h
  | cons b l' => exact List.getLast?_cons_cons

lemma collapseWsAux_last_nonws :
    ∀ (m : PyStr) (b : Bool),
      (∀ c, m.getLast? = some c → isWsN c = false) →
      (m ≠ [] → collapseWsAux b m ≠ []) ∧
      (∀ c, (collapseWsAux b m).getLast? = some c → isWsN c = false) := by
  intro m
  induction m with
  | nil =>
    intro b _
    exact ⟨fun h => absurd rfl h, fun c hc => by cases hc⟩
  | cons d rest ih =>
    intro b hlast
    cases rest with
    | nil =>
      have hd : isWsN d = false := hlast d rfl
      rw [collapseWsAux_cons, if_neg (by rw [hd]; exact Bool.false_ne_true)]
      constructor
      · intro _
        exact List.cons_ne_nil _ _
      · intro c hc
        cases hc
        exact hd
    | cons e rest' =>
      have hlast' : ∀ c, (e :: rest').getLast? = some c → isWsN c = false := by
        intro c hc
        exact hlast c (by rw [List.getLast?_cons_cons]; exact hc)
      by_cases hd : isWsN d
      · rw [collapseWsAux_cons, if_pos hd]
        cases b with
        | true => exact ⟨fun _ => (ih true hlast').1 (List.cons_ne_nil _ _),
            (ih true hlast').2⟩
        | false =>
          rw [if_neg Bool.false_ne_true]
          have hne := (ih true hlast').1 (List.cons_ne_nil _ _)
          constructor
          · intro _; exact List.cons_ne_nil _ _
          · intro c hc
            rw [getLast?_cons_of_ne_nil _ _ hne] at hc
            exact (ih true hlast').2 c hc
      · rw [collapseWsAux_cons, if_neg hd]
        have hne := (ih false hlast').1 (List.cons_ne_nil _ _)
        constructor
        · intro _; exact List.cons_ne_nil _ _
        · intro c hc
          rw [getLast?_cons_of_ne_nil _ _ hne] at hc
          exact (ih false hlast').2 c hc

lemma collapseWs_head_nonws (m : PyStr)
    (h : ∀ c, m.head? = some c → isWsN c = false) :
    ∀ c, (collapseWs m).head? = some c → isWsN c = false := by
  intro c hc
  cases m with
  | nil => cases hc
  | cons d rest =>
    have hd : isWsN d = false := h d rfl
    unfold collapseWs at hc
    rw [collapseWsAux_cons, if_neg (by rw [hd]; exact Bool.false_ne_true)] at hc
    cases hc
    exact hd

lemma head?_map_f {β : Type} (f : Nat → β) (l : PyStr) :
    (l.map f).head? = Option.map f l.head? := by
  cases l <;> rfl

lemma getLast?_map_f {β : Type} (f : Nat → β) :
    ∀ (l : PyStr), (l.map f).getLast? = Option.map f l.getLast? := by
  intro l
  induction l with
  | nil => rfl
  | cons c rest ih =>
    cases rest with
    | nil => rfl
    | cons d r =>
      rw [List.map_cons, List.map_cons, List.getLast?_cons_cons, ← List.map_cons,
        ih, List.getLast?_cons_cons]

lemma dropWhile_eq_self_of_head (l : PyStr)
    (h : ∀ c, l.head? = some c → isWsN c = false) : l.dropWhile isWsN = l := by
  cases l with
  | nil => rfl
  | cons c rest =>
    rw [List.dropWhile_cons, if_neg (by rw [h c rfl]; exact Bool.false_ne_true)]

lemma pyStrip_eq_self (l : PyStr)
    (hh : ∀ c, l.head? = some c → isWsN c = false)
    (hl : ∀ c, l.getLast? = some c → isWsN c = false) : pyStrip l = l := by
  unfold pyStrip
  rw [dropWhile_eq_self_of_head l hh]
  rw [dropWhile_eq_self_of_head l.reverse (by
    intro c hc
    rw [List.head?_reverse] at hc
    exact hl c hc)]
  exact List.reverse_reverse l

lemma title_head_nonws (n : PyStr)
    (h : ∀ c, n.head? = some c → isWsN c = false) :
    ∀ c, (pyTitle n).head? = some c → isWsN c = false := by
  intro c hc
  have hmask := titleAux_ws_mask n false
  have h1 : ((pyTitle n).map isWsN).head? = (n.map isWsN).head? := by
    unfold pyTitle
    rw [hmask]
  rw [head?_map_f, head?_map_f, hc] at h1
  cases hn : n.head? with
  | none => rw [hn] at h1; cases h1
  | some c' =>
    rw [hn] at h1
    have : isWsN c = isWsN c' := by
      injection h1
    rw [this]
    exact h c' hn

lemma title_last_nonws (n : PyStr)
    (h : ∀ c, n.getLast? = some c → isWsN c = false) :
    ∀ c, (pyTitle n).getLast? = some c → isWsN c = false := by
  intro c hc
  have hmask := titleAux_ws_mask n false
  have h1 : ((pyTitle n).map isWsN).getLast? = (n.map isWsN).getLast? := by
    unfold pyTitle
    rw [hmask]
  rw [getLast?_map_f, getLast?_map_f, hc] at h1
  cases hn : n.getLast? with
  | none => rw [hn] at h1; cases h1
  | some c' =>
    rw [hn] at h1
    have : isWsN c = isWsN c' := by
      injection h1
    rw [this]
    exact h c' hn

lemma pre_head_nonws (s : PyStr) :
    ∀ c, (collapseWs (pyLowerStr (pyStrip s))).head? = some c → isWsN c = false := by
  apply collapseWs_head_nonws
  intro c hc
  unfold pyLowerStr at hc
  rw [head?_map_f] at hc
  cases hn : (pyStrip s).head? with
  | none => rw [hn] at hc; cases hc
  | some c' =>
    rw [hn] at hc
    have : c = pyLowerN c' := by injection hc with h; exact h.symm
    rw [this, isWsN_pyLowerN]
    exact strip_head_nonws s c' hn

lemma pre_last_nonws (s : PyStr) :
    ∀ c, (collapseWs (pyLowerStr (pyStrip s))).getLast? = some c → isWsN c = false := by
  have hlastm : ∀ c, (pyLowerStr (pyStrip s)).getLast? = some c → isWsN c = false := by
    intro c hc
    unfold pyLowerStr at hc
    rw [getLast?_map_f] at hc
    cases hn : (pyStrip s).getLast? with
    | none => rw [hn] at hc; cases hc
    | some c' =>
      rw [hn] at hc
      have : c = pyLowerN c' := by injection hc with h; exact h.symm
      rw [this, isWsN_pyLowerN]
      exact strip_last_nonws s c' hn
  exact (collapseWsAux_last_nonws (pyLowerStr (pyStrip s)) false hlastm).2

/-- Re-normalizing the title-cased normalized text gives the normalized
text back: it has no edge whitespace, every character is lowercase-fixed
under the title casing, and its whitespace is already collapsed. -/
lemma pre_title_pre (s : PyStr) :
    collapseWs (pyLowerStr (pyStrip (pyTitle (collapseWs (pyLowerStr (pyStrip s)))))) =
      collapseWs (pyLowerStr (pyStrip s)) := by
  rw [pyStrip_eq_self (pyTitle (collapseWs (pyLowerStr (pyStrip s))))
    (title_head_nonws _ (pre_head_nonws s)) (title_last_nonws _ (pre_last_nonws s))]
  rw [show pyLowerStr (pyTitle (collapseWs (pyLowerStr (pyStrip s)))) =
      collapseWs (pyLowerStr (pyStrip s)) from
    titleAux_lower _ false (allLower_pre (pyStrip s))]
  exact collapse_idem_aux (pyLowerStr (pyStrip s)) false

/-- C6: `normalize_surface_name` is idempotent: a canonical alias-table
label re-normalizes to itself, and an unmapped token's title-cased
normalized form re-normalizes to itself because its normalization is a
fixed point and it still matches no alias pattern. -/
theorem normalize_surface_idem (s : PyStr) :
    normalize_surface_name (normalize_surface_name s) = normalize_surface_name s := by
  simp only [normalize_surface_name]
  by_cases h1 : searchSep (strToPy "кпп") (strToPy "вд")
      (collapseWs (pyLowerStr (pyStrip s))) = true
  · rw [if_pos h1]; decide
  · rw [if_neg h1]
    by_cases h2 : searchSep (strToPy "кпп") (strToPy "нд-1")
        (collapseWs (pyLowerStr (pyStrip s))) = true
    · rw [if_pos h2]; decide
    · rw [if_neg h2]
      by_cases h3 : searchSep (strToPy "кпп") (strToPy "нд-2")
          (collapseWs (pyLowerStr (pyStrip s))) = true
      · rw [if_pos h3]; decide
      · rw [if_neg h3]
        by_cases h4 : searchSep (strToPy "кпп") (strToPy "нд")
            (collapseWs (pyLowerStr (pyStrip s))) = true
        · rw [if_pos h4]; decide
        · rw [if_neg h4]
          by_cases h5 : pySubstr (strToPy "шпп")
              (collapseWs (pyLowerStr (pyStrip s))) = true
          · rw [if_pos h5]; decide
          · rw [if_neg h5]
            by_cases h6 : pySubstr (strToPy "эпк")
                (collapseWs (pyLowerStr (pyStrip s))) = true
            · rw [if_pos h6]; decide
            · rw [if_neg h6]
              by_cases h7 : searchSep (strToPy "пс") (strToPy "кш")
                  (collapseWs (pyLowerStr (pyStrip s))) = true
              · rw [if_pos h7]; decide
              · rw [if_neg h7]
                rw [pre_title_pre s]
                rw [if_neg h1, if_neg h2, if_neg h3, if_neg h4, if_neg h5,
                  if_neg h6, if_neg h7]
